import Mathlib

/-!
# Verification of the git object-store core

A shallow embedding, in Lean 4, of the content-addressable object store
implemented by the repository (a minimal git clone in Rust), together with
proofs about the specified properties of its codecs, store, tree builder and
commit builder.

Modelling conventions:
* Rust byte slices / `Vec<u8>` are `List Nat` (each element a byte value).
* Rust `String` / `str` values are `List Char` (Unicode scalar values, exactly
  as in Rust); their byte form is obtained with `utf8Encode`, mirroring
  `str::as_bytes`.
* Rust `Result<T>` is `Except String T`, carrying the source's context
  messages.
* Filesystem reads/writes are made explicit: the object store is a finite map
  from paths to byte contents, threaded through the functions that the source
  lets write to disk; SHA-1 and zlib, which come from external crates, are
  abstracted as function parameters.
-/

set_option synthInstance.maxSize 512

deriving instance DecidableEq for Except

namespace GitRs

/-! ## UTF-8, mirroring the `str` / byte-slice boundary of the source -/

/-- The UTF-8 encoding of one Unicode scalar value, as byte values.
Mirrors the standard UTF-8 encoder used by Rust `String`. -/
def utf8EncodeChar (c : Char) : List Nat :=
  let v := c.toNat
  if v < 0x80 then [v]
  else if v < 0x800 then [0xC0 + v / 64, 0x80 + v % 64]
  else if v < 0x10000 then [0xE0 + v / 4096, 0x80 + v / 64 % 64, 0x80 + v % 64]
  else [0xF0 + v / 0x40000, 0x80 + v / 4096 % 64, 0x80 + v / 64 % 64, 0x80 + v % 64]

/-- `str::as_bytes` for a Rust string modelled as a `List Char`. -/
def utf8Encode (cs : List Char) : List Nat :=
  cs.flatMap utf8EncodeChar

/-- Byte form of a Lean string literal (used for the ASCII literals of the
source). -/
def strBytes (s : String) : List Nat :=
  utf8Encode s.toList

/-- Scalar value of a well-formed two-byte UTF-8 sequence, `none` otherwise. -/
def utf8Val2 (b1 b2 : Nat) : Option Nat :=
  if 0xC2 ≤ b1 ∧ b1 < 0xE0 ∧ 0x80 ≤ b2 ∧ b2 < 0xC0 then
    some ((b1 - 0xC0) * 64 + (b2 - 0x80))
  else none

/-- Scalar value of a well-formed three-byte UTF-8 sequence (no overlong
forms, no surrogates), `none` otherwise. -/
def utf8Val3 (b1 b2 b3 : Nat) : Option Nat :=
  if 0xE0 ≤ b1 ∧ b1 < 0xF0 ∧ 0x80 ≤ b2 ∧ b2 < 0xC0 ∧ 0x80 ≤ b3 ∧ b3 < 0xC0 then
    let v := (b1 - 0xE0) * 4096 + (b2 - 0x80) * 64 + (b3 - 0x80)
    if 0x800 ≤ v ∧ (v < 0xD800 ∨ 0xE000 ≤ v) then some v else none
  else none

/-- Scalar value of a well-formed four-byte UTF-8 sequence, `none`
otherwise. -/
def utf8Val4 (b1 b2 b3 b4 : Nat) : Option Nat :=
  if 0xF0 ≤ b1 ∧ b1 < 0xF5 ∧ 0x80 ≤ b2 ∧ b2 < 0xC0 ∧ 0x80 ≤ b3 ∧ b3 < 0xC0 ∧
      0x80 ≤ b4 ∧ b4 < 0xC0 then
    let v := (b1 - 0xF0) * 0x40000 + (b2 - 0x80) * 4096 + (b3 - 0x80) * 64 + (b4 - 0x80)
    if 0x10000 ≤ v ∧ v < 0x110000 then some v else none
  else none

/-- Decode one UTF-8 sequence from the head of a byte list, returning the
character and the remaining bytes. -/
def utf8DecodeStep : List Nat → Option (Char × List Nat)
  | [] => none
  | b1 :: rest =>
    if b1 < 0x80 then some (Char.ofNat b1, rest)
    else
      match rest with
      | [] => none
      | b2 :: rest2 =>
        match utf8Val2 b1 b2 with
        | some v => some (Char.ofNat v, rest2)
        | none =>
          match rest2 with
          | [] => none
          | b3 :: rest3 =>
            match utf8Val3 b1 b2 b3 with
            | some v => some (Char.ofNat v, rest3)
            | none =>
              match rest3 with
              | [] => none
              | b4 :: rest4 =>
                match utf8Val4 b1 b2 b3 b4 with
                | some v => some (Char.ofNat v, rest4)
                | none => none

/-- The decoding loop, with explicit structural fuel: one unit of fuel per
decoded character suffices, and `utf8Decode` below supplies enough for the
fuel never to run out. -/
def utf8DecodeAux : Nat → List Nat → Option (List Char)
  | _, [] => some []
  | 0, _ :: _ => none
  | fuel + 1, b :: r =>
    match utf8DecodeStep (b :: r) with
    | some (c, rest) => (utf8DecodeAux fuel rest).map (c :: ·)
    | none => none

/-- Strict UTF-8 decoding, mirroring `String::from_utf8` / `str::from_utf8`:
rejects truncated sequences, overlong encodings, surrogates and values beyond
U+10FFFF. -/
def utf8Decode (l : List Nat) : Option (List Char) :=
  utf8DecodeAux l.length l

/-- The digit-emitting loop of decimal formatting, with structural fuel. -/
def decimalCharsAux : Nat → Nat → List Char
  | 0, _ => []
  | fuel + 1, n =>
    if n < 10 then [Char.ofNat (48 + n)]
    else decimalCharsAux fuel (n / 10) ++ [Char.ofNat (48 + n % 10)]

/-- Decimal rendering of a natural number, as the character list produced by
Rust `format!` on an unsigned integer (`n + 1` units of fuel always cover
the digit count). -/
def decimalChars (n : Nat) : List Char :=
  decimalCharsAux (n + 1) n

/-! ## `git_objects/hash.rs` -/

def SHA1_LENGTH : Nat := 40

def SHA1_BYTES : Nat := 20

/-- Rust `char::is_ascii_hexdigit`: `0-9`, `a-f`, `A-F`. -/
def isAsciiHexDigit (c : Char) : Bool :=
  decide ((48 ≤ c.toNat ∧ c.toNat ≤ 57) ∨ (97 ≤ c.toNat ∧ c.toNat ≤ 102) ∨
    (65 ≤ c.toNat ∧ c.toNat ≤ 70))

/-- `validate_sha1`: exactly 40 case-insensitive hex digits. -/
def validate_sha1 (hash : List Char) : Except String Unit :=
  if hash.length ≠ SHA1_LENGTH then
    Except.error "Invalid SHA-1 length"
  else if ¬ hash.all isAsciiHexDigit then
    Except.error "Invalid SHA-1 format: contains non-hex characters"
  else Except.ok ()

/-- Value of one hex digit, as read by `u8::from_str_radix(_, 16)`. -/
def hexDigitVal (c : Char) : Option Nat :=
  if 48 ≤ c.toNat ∧ c.toNat ≤ 57 then some (c.toNat - 48)
  else if 97 ≤ c.toNat ∧ c.toNat ≤ 102 then some (c.toNat - 87)
  else if 65 ≤ c.toNat ∧ c.toNat ≤ 70 then some (c.toNat - 55)
  else none

/-- The two-characters-at-a-time loop of `hex_to_bytes`. -/
def hexPairsToBytes : List Char → Except String (List Nat)
  | [] => Except.ok []
  | [_] => Except.error "Invalid hex byte"
  | c1 :: c2 :: rest =>
    match hexDigitVal c1, hexDigitVal c2 with
    | some v1, some v2 => (hexPairsToBytes rest).map ((16 * v1 + v2) :: ·)
    | _, _ => Except.error "Invalid hex byte"

/-- `hex_to_bytes`: validates the 40-hex-digit shape, then converts
consecutive pairs of hex digits to bytes. -/
def hex_to_bytes (hash : List Char) : Except String (List Nat) :=
  (validate_sha1 hash).bind fun _ => hexPairsToBytes hash

/-- One hex digit of Rust lowercase hex formatting. -/
def toLowerHexChar (v : Nat) : Char :=
  if v < 10 then Char.ofNat (48 + v) else Char.ofNat (87 + v)

/-- Rust `format!` with the `{:02x}` spec on a byte value. -/
def byteToHexChars (b : Nat) : List Char :=
  [toLowerHexChar (b / 16), toLowerHexChar (b % 16)]

/-- The hex string rendered from raw SHA-1 bytes by the tree parser. -/
def bytesToHexChars (bs : List Nat) : List Char :=
  bs.flatMap byteToHexChars

/-! ## Object types and file modes -/

/-- The object types of `git_objects.rs` (`GitObjectType`). -/
inductive GitObjectType
  | Blob
  | Tree
deriving DecidableEq, Repr

/-- `GitObjectType::as_str`. -/
def GitObjectType.as_str : GitObjectType → List Char
  | .Blob => "blob".toList
  | .Tree => "tree".toList

/-- Modelled from the spec: `FileMode` is imported by `git_objects/tree.rs`
from the crate root, but its defining module is not among the sources; spec
section 3 fixes its four variants (regular-file, executable-file,
symbolic-link, directory) together with the rule that a directory references
a tree and every other mode references a blob, and sections 3 and 6 give the
tree wire format whose mode texts are git's standard ones (the repository's
own `GitObjectType::from_mode` matches mode texts `100...`, `120...` and
`40000`). -/
inductive FileMode
  | RegularFile
  | ExecutableFile
  | SymbolicLink
  | Directory
deriving DecidableEq, Repr

/-- Modelled from the spec: the standard git mode text of each mode. -/
def FileMode.as_str : FileMode → List Char
  | .RegularFile => "100644".toList
  | .ExecutableFile => "100755".toList
  | .SymbolicLink => "120000".toList
  | .Directory => "40000".toList

/-- Modelled from the spec: parsing a mode text, failing on unrecognized
text (spec section 4.5). -/
def FileMode.from_str (s : List Char) : Except String FileMode :=
  if s = "100644".toList then Except.ok .RegularFile
  else if s = "100755".toList then Except.ok .ExecutableFile
  else if s = "120000".toList then Except.ok .SymbolicLink
  else if s = "40000".toList then Except.ok .Directory
  else Except.error "Unknown file mode"

/-- Modelled from the spec: directory entries reference trees, all other
modes reference blobs (spec section 3). -/
def FileMode.to_object_type : FileMode → GitObjectType
  | .Directory => .Tree
  | _ => .Blob

/-- The decoded tree-entry record of `git_objects/tree.rs` (`TreeEntry`). -/
structure TreeEntry where
  mode : FileMode
  name : List Char
  sha1 : List Char
  object_type : GitObjectType
deriving DecidableEq, Repr

/-! ## `git_objects/blob.rs` -/

/-- `create_blob_object`: prepends the header `"blob <len>\x00"` (as UTF-8
bytes of the formatted header string) to the raw file content. -/
def create_blob_object (file_content : List Nat) : List Nat :=
  utf8Encode ("blob ".toList ++ decimalChars file_content.length ++ [Char.ofNat 0])
    ++ file_content

/-! ## `git_objects/tree.rs`: the tree codec -/

/-- `iter().position(|b| b == target)` followed by slicing: the bytes before
the first occurrence of `target` and the bytes after it. -/
def splitAtFirst (target : Nat) : List Nat → Option (List Nat × List Nat)
  | [] => none
  | x :: xs =>
    if x = target then some ([], xs)
    else (splitAtFirst target xs).map (fun p => (x :: p.1, p.2))

/-- One iteration of the entry loop of `parse_tree_entries`: mode text up to
a space, name up to a null byte, then 20 raw SHA-1 bytes rendered as
lowercase hex. Returns `none` when the input is exhausted. -/
def parseEntryStep (l : List Nat) : Except String (Option (TreeEntry × List Nat)) :=
  if l = [] then Except.ok none
  else
    match splitAtFirst 32 l with
    | none => Except.error "Invalid tree entry: missing space"
    | some (modeBytes, rest1) =>
      match utf8Decode modeBytes with
      | none => Except.error "Invalid mode in tree entry"
      | some modeChars =>
        match splitAtFirst 0 rest1 with
        | none => Except.error "Invalid tree entry: missing null separator"
        | some (nameBytes, rest2) =>
          match utf8Decode nameBytes with
          | none => Except.error "Invalid name in tree entry"
          | some nameChars =>
            if rest2.length < SHA1_BYTES then
              Except.error "Invalid tree entry: incomplete SHA-1 hash"
            else
              match FileMode.from_str modeChars with
              | Except.error e => Except.error e
              | Except.ok mode =>
                Except.ok (some (⟨mode, nameChars,
                  bytesToHexChars (rest2.take SHA1_BYTES), mode.to_object_type⟩,
                  rest2.drop SHA1_BYTES))

/-- The `while pos < content.len()` loop of `parse_tree_entries`, with
structural fuel: each entry consumes at least 22 bytes, so the input length
(supplied by `parseEntriesLoop` below) always covers the iteration count. -/
def parseEntriesLoopAux : Nat → List Nat → Except String (List TreeEntry)
  | _, [] => Except.ok []
  | 0, _ :: _ => Except.error "recursion limit"
  | fuel + 1, b :: r =>
    match parseEntryStep (b :: r) with
    | Except.error e => Except.error e
    | Except.ok none => Except.ok []
    | Except.ok (some (e, rest)) => (parseEntriesLoopAux fuel rest).map (e :: ·)

/-- The `while pos < content.len()` loop of `parse_tree_entries`. -/
def parseEntriesLoop (content : List Nat) : Except String (List TreeEntry) :=
  parseEntriesLoopAux content.length content

/-- `parse_tree_entries` (the `git_objects/tree.rs` version): skip everything
up to and including the first null byte — the header — without validating it,
then run the entry loop on the remainder. -/
def parse_tree_entries (content : List Nat) : Except String (List TreeEntry) :=
  match splitAtFirst 0 content with
  | none => Except.error "Invalid tree object: missing null separator"
  | some (_, rest) => parseEntriesLoop rest

/-- Byte size of one entry as summed by `build_tree_content`:
`mode.as_str().len() + 1 + name.len() + 1 + SHA1_BYTES`. -/
def treeEntrySize (e : FileMode × List Char × List Char) : Nat :=
  (utf8Encode e.1.as_str).length + 1 + (utf8Encode e.2.1).length + 1 + SHA1_BYTES

/-- The entry-serialization loop of `build_tree_content`: mode text, space,
name, null byte, then the 20 raw bytes of the hex fingerprint. -/
def treeEntriesBody : List (FileMode × List Char × List Char) → Except String (List Nat)
  | [] => Except.ok []
  | (mode, name, hash) :: rest =>
    (hex_to_bytes hash).bind fun hashBytes =>
      (treeEntriesBody rest).map fun tl =>
        utf8Encode mode.as_str ++ 32 :: (utf8Encode name ++ 0 :: (hashBytes ++ tl))

/-- `build_tree_content`: header `"tree <size>\x00"` with the precomputed
total entry size, followed by the serialized entries. -/
def build_tree_content (entries : List (FileMode × List Char × List Char)) :
    Except String (List Nat) :=
  (treeEntriesBody entries).map fun body =>
    utf8Encode ("tree ".toList ++ decimalChars (entries.map treeEntrySize).sum
      ++ [Char.ofNat 0]) ++ body

/-! ## Round-trip lemmas for the hex and tree codecs -/

/-- A lowercase hex digit, the alphabet produced by Rust `{:02x}`
formatting. -/
def isLowerHexDigit (c : Char) : Bool :=
  decide ((48 ≤ c.toNat ∧ c.toNat ≤ 57) ∨ (97 ≤ c.toNat ∧ c.toNat ≤ 102))

/-- Entries on which the tree codec is exercised below: name without a null
character, fingerprint of exactly 40 lowercase hex digits. -/
def wfTreeInput (e : FileMode × List Char × List Char) : Prop :=
  Char.ofNat 0 ∉ e.2.1 ∧ e.2.2.length = 40 ∧ ∀ c ∈ e.2.2, isLowerHexDigit c = true

instance (e : FileMode × List Char × List Char) : Decidable (wfTreeInput e) := by
  unfold wfTreeInput
  infer_instance

/-- The decoded record that `parse_tree_entries` produces for one encoded
input entry. -/
def entryRecord (e : FileMode × List Char × List Char) : TreeEntry :=
  ⟨e.1, e.2.1, e.2.2, e.1.to_object_type⟩

/-! ## `git_objects/path.rs` -/

/-- Rust `&s[..n]` on a string slice: the characters whose UTF-8 encoding
occupies the first `n` bytes, or `none` (modelling an indexing panic) when
`n` is past the end or not on a character boundary. -/
def rustSliceTo : List Char → Nat → Option (List Char)
  | _, 0 => some []
  | [], _ + 1 => none
  | c :: cs, n + 1 =>
    if c.utf8Size ≤ n + 1 then (rustSliceTo cs (n + 1 - c.utf8Size)).map (c :: ·)
    else none

/-- Rust `&s[n..]` on a string slice, with `none` modelling an indexing
panic. -/
def rustSliceFrom : List Char → Nat → Option (List Char)
  | cs, 0 => some cs
  | [], _ + 1 => none
  | c :: cs, n + 1 =>
    if c.utf8Size ≤ n + 1 then rustSliceFrom cs (n + 1 - c.utf8Size) else none

/-- `git_object_path`: `.git/objects/<first 2 bytes of the hex>/<remaining
bytes>`, built with `Path::join` (and printed here with `/` separators);
`none` models a slicing panic. -/
def git_object_path (object_hash : List Char) : Option (List Char) :=
  (rustSliceTo object_hash 2).bind fun d =>
    (rustSliceFrom object_hash 2).map fun f =>
      ".git/objects/".toList ++ d ++ '/' :: f

/-! ## `git_objects.rs`: the object store -/

/-- The files under the repository, as a path-to-contents map in first-write
order. -/
abbrev ObjStore := List (List Char × List Nat)

/-- `fs::write`: replaces the contents at an existing path, creates the file
otherwise. -/
def storeWrite (path : List Char) (v : List Nat) : ObjStore → ObjStore
  | [] => [(path, v)]
  | (p, w) :: rest =>
    if p = path then (path, v) :: rest else (p, w) :: storeWrite path v rest

/-- Path lookup in the store. -/
def storeRead (path : List Char) : ObjStore → Option (List Nat)
  | [] => none
  | (p, w) :: rest => if p = path then some w else storeRead path rest

/-- The path text of `git_object_path` expressed with character positions;
for the 40-hex-digit hashes actually produced it coincides with the
byte-sliced `git_object_path` (proved below). -/
def gitObjectPathChars (hashHex : List Char) : List Char :=
  ".git/objects/".toList ++ hashHex.take 2 ++ '/' :: hashHex.drop 2

/-- `write_git_object`, with SHA-1 (`calculate_sha1`, the `sha1` crate) and
zlib compression (`ZlibEncoder`, default level) abstracted as function
parameters: hash the content, compress it, create the object directory
(no observable effect on the path-to-contents map) and write the compressed
bytes at the hash-derived path, overwriting whatever was there
(`fs::write`). Returns the hex fingerprint. -/
def write_git_object (sha1 : List Nat → List Char) (compress : List Nat → List Nat)
    (content : List Nat) (st : ObjStore) : List Char × ObjStore :=
  let hashHex := sha1 content
  (hashHex, storeWrite (gitObjectPathChars hashHex) (compress content) st)

/-! ## `git_objects/tree.rs`: the tree builder -/

/-- A model of a directory listing as observed by `write_tree` through
`fs::read_dir`, `entry.file_name()`, `entry.file_type()`, `fs::read` and the
executability check: each entry, in iteration order, is a regular file with
contents and an executable bit, a subdirectory with its own listing, or a
symbolic link (whose target the source never reads). -/
inductive FsDir
  | nil
  | file (name : List Char) (content : List Nat) (executable : Bool) (rest : FsDir)
  | dir (name : List Char) (sub : FsDir) (rest : FsDir)
  | symlink (name : List Char) (rest : FsDir)

/-- `entries.sort_by(|a, b| a.1.cmp(&b.1))`: stable sort of the collected
`(mode, name, hash)` triples by name; Rust's byte-wise `str` comparison
coincides with code-point lexicographic order on the characters. -/
def sortByName (es : List (FileMode × List Char × List Char)) :
    List (FileMode × List Char × List Char) :=
  List.insertionSort (fun a b => a.2.1 ≤ b.2.1) es

instance : IsTotal (FileMode × List Char × List Char) (fun a b => a.2.1 ≤ b.2.1) :=
  ⟨fun a b => le_total a.2.1 b.2.1⟩

instance : IsTrans (FileMode × List Char × List Char) (fun a b => a.2.1 ≤ b.2.1) :=
  ⟨fun _ _ _ h1 h2 => le_trans h1 h2⟩

/-- Removal of the symbolic-link entries of one directory listing (the
subdirectories' own listings are untouched). -/
def dropSymlinks : FsDir → FsDir
  | .nil => .nil
  | .file n c e r => .file n c e (dropSymlinks r)
  | .dir n s r => .dir n s (dropSymlinks r)
  | .symlink _ r => dropSymlinks r

/-- Closing one directory level of `write_tree`: sort the collected entries
by name, serialize them with `build_tree_content`, store the tree object and
return its fingerprint. -/
def finishTree (sha1 : List Nat → List Char) (compress : List Nat → List Nat)
    (p : List (FileMode × List Char × List Char) × ObjStore) :
    Except String (List Char × ObjStore) :=
  (build_tree_content (sortByName p.1)).map fun content =>
    write_git_object sha1 compress content p.2

/-- The entry-collection loop of `write_tree`: skips `.git`; for a regular
file, writes its blob object and records a file-mode entry; for a
subdirectory, recurses (the recursive `write_tree` call is this collection
followed by `finishTree`) and records a directory-mode entry; an entry
whose `file_type()` is neither a regular file nor a directory (notably a
symbolic link) matches neither `if` branch of the source and is skipped. -/
def collectTreeEntries (sha1 : List Nat → List Char) (compress : List Nat → List Nat) :
    FsDir → ObjStore →
      Except String (List (FileMode × List Char × List Char) × ObjStore)
  | .nil, st => Except.ok ([], st)
  | .file name content executable rest, st =>
    if name = ".git".toList then collectTreeEntries sha1 compress rest st
    else
      let blobWrite := write_git_object sha1 compress (create_blob_object content) st
      let mode := if executable then FileMode.ExecutableFile else FileMode.RegularFile
      (collectTreeEntries sha1 compress rest blobWrite.2).map fun p =>
        ((mode, name, blobWrite.1) :: p.1, p.2)
  | .dir name sub rest, st =>
    if name = ".git".toList then collectTreeEntries sha1 compress rest st
    else
      (collectTreeEntries sha1 compress sub st).bind fun q =>
        (finishTree sha1 compress q).bind fun w =>
          (collectTreeEntries sha1 compress rest w.2).map fun p =>
            ((FileMode.Directory, name, w.1) :: p.1, p.2)
  | .symlink name rest, st =>
    if name = ".git".toList then collectTreeEntries sha1 compress rest st
    else collectTreeEntries sha1 compress rest st

/-- `write_tree`, applied to the listing of one directory: collect the
entries (writing blob and subtree objects along the way), then close the
level with `finishTree`. -/
def write_tree (sha1 : List Nat → List Char) (compress : List Nat → List Nat)
    (entries : FsDir) (st : ObjStore) : Except String (List Char × ObjStore) :=
  (collectTreeEntries sha1 compress entries st).bind (finishTree sha1 compress)

/-! ## `git_objects/commit.rs` -/

/-- The header-line portion of the commit text built by
`create_commit_object`: the tree line, the parent line when a parent is
given, then the author and committer lines with the source's fixed identity.
The wall-clock `timestamp` (seconds since the epoch) is passed explicitly. -/
def commitHeaderChars (tree_hash : List Char) (parent_hash : Option (List Char))
    (timestamp : Nat) : List Char :=
  ("tree ".toList ++ tree_hash ++ ['\n'])
  ++ (match parent_hash with
      | some parent => "parent ".toList ++ parent ++ ['\n']
      | none => [])
  ++ ("author Hugo <test@example.com> ".toList ++ decimalChars timestamp
      ++ " +0000\n".toList)
  ++ ("committer Hugo <test@example.com> ".toList ++ decimalChars timestamp
      ++ " +0000\n".toList)

/-- The author line of the commit header, without its trailing newline (an
observation used to state which lines the header consists of). -/
def authorLineBody (ts : Nat) : List Char :=
  "author Hugo <test@example.com> ".toList ++ decimalChars ts ++ " +0000".toList

/-- The committer line of the commit header, without its trailing newline. -/
def committerLineBody (ts : Nat) : List Char :=
  "committer Hugo <test@example.com> ".toList ++ decimalChars ts ++ " +0000".toList

/-- The full commit text: header lines, a blank line, the message, a final
newline. -/
def create_commit_content (tree_hash : List Char) (parent_hash : Option (List Char))
    (message : List Char) (timestamp : Nat) : List Char :=
  commitHeaderChars tree_hash parent_hash timestamp ++ '\n' :: (message ++ ['\n'])

/-- The framed commit payload written by `create_commit_object`:
`"commit <byte length>\x00"` followed by the UTF-8 bytes of the commit
text. -/
def create_commit_object (tree_hash : List Char) (parent_hash : Option (List Char))
    (message : List Char) (timestamp : Nat) : List Nat :=
  let commitBytes := utf8Encode (create_commit_content tree_hash parent_hash message timestamp)
  utf8Encode ("commit ".toList ++ decimalChars commitBytes.length ++ [Char.ofNat 0])
    ++ commitBytes

/-! ## `commands/cat_file.rs` -/

/-- The Unicode `White_Space` characters: the class tested by Rust
`char::is_whitespace`, hence trimmed by `str::trim_end`. -/
def rustIsWhitespace (c : Char) : Bool :=
  [0x09, 0x0A, 0x0B, 0x0C, 0x0D, 0x20, 0x85, 0xA0, 0x1680,
   0x2000, 0x2001, 0x2002, 0x2003, 0x2004, 0x2005, 0x2006, 0x2007, 0x2008,
   0x2009, 0x200A, 0x2028, 0x2029, 0x202F, 0x205F, 0x3000].contains c.toNat

/-- Rust `str::trim_end`. -/
def rustTrimEnd (cs : List Char) : List Char :=
  (cs.reverse.dropWhile rustIsWhitespace).reverse

/-- The pretty-print branch of `cat_file::run`, applied to the decompressed
object payload: decode the whole payload as text (`String::from_utf8`,
failing on non-UTF-8 bytes), take the piece between the first and second
null characters (`split('\0').nth(1)`), and trim trailing whitespace. The
returned characters are exactly what `print!` emits. -/
def catFilePretty (content : List Nat) : Except String (List Char) :=
  match utf8Decode content with
  | none => Except.error "Invalid UTF-8 in object content"
  | some s =>
    match (s.splitOn (Char.ofNat 0))[1]? with
    | none => Except.error "Invalid object format: missing null separator"
    | some piece => Except.ok (rustTrimEnd piece)

/-! ## Lemmas -/

theorem utf8DecodeStep_shorter {l : List Nat} {c : Char} {rest : List Nat}
    (h : utf8DecodeStep l = some (c, rest)) : rest.length < l.length := by
  match l with
  | [] => simp [utf8DecodeStep] at h
  | b1 :: r =>
    simp only [utf8DecodeStep] at h
    by_cases h1 : b1 < 0x80
    · rw [if_pos h1] at h
      cases h
      simp
    · rw [if_neg h1] at h
      match r with
      | [] => cases h
      | b2 :: r2 =>
        simp only at h
        cases hv2 : utf8Val2 b1 b2 with
        | some v => rw [hv2] at h; cases h; simp; omega
        | none =>
          rw [hv2] at h
          match r2 with
          | [] => cases h
          | b3 :: r3 =>
            simp only at h
            cases hv3 : utf8Val3 b1 b2 b3 with
            | some v => rw [hv3] at h; cases h; simp; omega
            | none =>
              rw [hv3] at h
              match r3 with
              | [] => cases h
              | b4 :: r4 =>
                simp only at h
                cases hv4 : utf8Val4 b1 b2 b3 b4 with
                | some v => rw [hv4] at h; cases h; simp; omega
                | none => rw [hv4] at h; cases h

/-- The fuel of `utf8DecodeAux` is irrelevant once it covers the input
length. -/
theorem utf8DecodeAux_congr : ∀ f1 f2 l, l.length ≤ f1 → l.length ≤ f2 →
    utf8DecodeAux f1 l = utf8DecodeAux f2 l := by
  intro f1
  induction f1 with
  | zero =>
    intro f2 l h1 _
    have : l = [] := List.length_eq_zero.1 (by omega)
    subst this
    cases f2 <;> rfl
  | succ f1 ih =>
    intro f2 l h1 h2
    match l with
    | [] => cases f2 <;> rfl
    | b :: r =>
      match f2 with
      | 0 => simp at h2
      | f2 + 1 =>
        simp only [utf8DecodeAux]
        cases hs : utf8DecodeStep (b :: r) with
        | none => rfl
        | some p =>
          obtain ⟨c, rest⟩ := p
          have hlt := utf8DecodeStep_shorter hs
          simp only [List.length_cons] at h1 h2 hlt
          show (utf8DecodeAux f1 rest).map (c :: ·) = (utf8DecodeAux f2 rest).map (c :: ·)
          rw [ih f2 rest (by omega) (by omega)]

/-- Unfolding `utf8Decode` when one decoding step succeeds. -/
theorem utf8Decode_step_some {l : List Nat} {c : Char} {rest : List Nat}
    (h : utf8DecodeStep l = some (c, rest)) :
    utf8Decode l = (utf8Decode rest).map (c :: ·) := by
  match l with
  | [] => simp [utf8DecodeStep] at h
  | b :: r =>
    have hlt := utf8DecodeStep_shorter h
    simp only [List.length_cons] at hlt
    unfold utf8Decode
    simp only [List.length_cons, utf8DecodeAux, h]
    rw [utf8DecodeAux_congr r.length rest.length rest (by omega) (by omega)]

/-- Unfolding `utf8Decode` when no decoding step is possible. -/
theorem utf8Decode_step_none {l : List Nat} (h : utf8DecodeStep l = none) :
    utf8Decode l = if l = [] then some [] else none := by
  match l with
  | [] => rfl
  | b :: r =>
    unfold utf8Decode
    simp only [List.length_cons, utf8DecodeAux, h]
    simp

/-! ### Basic facts about the UTF-8 layer -/

theorem toNat_ofNat (n : Nat) (h : Nat.isValidChar n) : (Char.ofNat n).toNat = n := by
  simp only [Char.ofNat, dif_pos h, Char.ofNatAux, Char.toNat]
  have : n < 2 ^ 32 := by rcases h with h | ⟨_, h⟩ <;> omega
  simp [UInt32.toNat, Nat.mod_eq_of_lt this]

theorem char_valid (c : Char) : Nat.isValidChar c.toNat := by
  have h := c.valid
  rcases h with h | ⟨h1, h2⟩
  · exact Or.inl h
  · exact Or.inr ⟨h1, h2⟩

/-- Stepping over the encoding of one scalar value recovers that value and
leaves the remainder untouched. -/
theorem utf8DecodeStep_encodeChar (c : Char) (rest : List Nat) :
    utf8DecodeStep (utf8EncodeChar c ++ rest) = some (c, rest) := by
  have hv := char_valid c
  have hlt : c.toNat < 0x110000 := by
    rcases hv with h | ⟨_, h⟩ <;> omega
  by_cases h1 : c.toNat < 0x80
  · simp only [utf8EncodeChar, if_pos h1, List.cons_append, List.nil_append]
    simp only [utf8DecodeStep, if_pos h1, Char.ofNat_toNat]
  · by_cases h2 : c.toNat < 0x800
    · simp only [utf8EncodeChar, if_neg h1, if_pos h2, List.cons_append, List.nil_append]
      have hb1 : ¬ (0xC0 + c.toNat / 64 < 0x80) := by omega
      have hv2 : utf8Val2 (0xC0 + c.toNat / 64) (0x80 + c.toNat % 64) = some c.toNat := by
        unfold utf8Val2
        rw [if_pos (by omega)]
        exact congrArg some (by omega)
      simp only [utf8DecodeStep, if_neg hb1, hv2, Char.ofNat_toNat]
    · by_cases h3 : c.toNat < 0x10000
      · simp only [utf8EncodeChar, if_neg h1, if_neg h2, if_pos h3, List.cons_append,
          List.nil_append]
        have hb1 : ¬ (0xE0 + c.toNat / 4096 < 0x80) := by omega
        have hv2 : utf8Val2 (0xE0 + c.toNat / 4096) (0x80 + c.toNat / 64 % 64) = none := by
          unfold utf8Val2
          rw [if_neg (by omega)]
        have hval : (0xE0 + c.toNat / 4096 - 0xE0) * 4096
            + (0x80 + c.toNat / 64 % 64 - 0x80) * 64 + (0x80 + c.toNat % 64 - 0x80)
            = c.toNat := by omega
        have hrange : 0x800 ≤ c.toNat ∧ (c.toNat < 0xD800 ∨ 0xE000 ≤ c.toNat) := by
          rcases hv with h | ⟨hh1, _⟩
          · exact ⟨by omega, Or.inl h⟩
          · exact ⟨by omega, Or.inr (by omega)⟩
        have hv3 : utf8Val3 (0xE0 + c.toNat / 4096) (0x80 + c.toNat / 64 % 64)
            (0x80 + c.toNat % 64) = some c.toNat := by
          unfold utf8Val3
          rw [if_pos (by omega)]
          simp only [hval, if_pos hrange]
        simp only [utf8DecodeStep, if_neg hb1, hv2, hv3, Char.ofNat_toNat]
      · simp only [utf8EncodeChar, if_neg h1, if_neg h2, if_neg h3, List.cons_append,
          List.nil_append]
        have hb1 : ¬ (0xF0 + c.toNat / 0x40000 < 0x80) := by omega
        have hv2 : utf8Val2 (0xF0 + c.toNat / 0x40000) (0x80 + c.toNat / 4096 % 64)
            = none := by
          unfold utf8Val2
          rw [if_neg (by omega)]
        have hv3 : utf8Val3 (0xF0 + c.toNat / 0x40000) (0x80 + c.toNat / 4096 % 64)
            (0x80 + c.toNat / 64 % 64) = none := by
          unfold utf8Val3
          rw [if_neg (by omega)]
        have hval : (0xF0 + c.toNat / 0x40000 - 0xF0) * 0x40000
            + (0x80 + c.toNat / 4096 % 64 - 0x80) * 4096
            + (0x80 + c.toNat / 64 % 64 - 0x80) * 64 + (0x80 + c.toNat % 64 - 0x80)
            = c.toNat := by omega
        have hv4 : utf8Val4 (0xF0 + c.toNat / 0x40000) (0x80 + c.toNat / 4096 % 64)
            (0x80 + c.toNat / 64 % 64) (0x80 + c.toNat % 64) = some c.toNat := by
          unfold utf8Val4
          rw [if_pos (by omega)]
          simp only [hval, if_pos (show 0x10000 ≤ c.toNat ∧ c.toNat < 0x110000 from
            ⟨by omega, hlt⟩)]
        simp only [utf8DecodeStep, if_neg hb1, hv2, hv3, hv4, Char.ofNat_toNat]

theorem utf8Decode_nil : utf8Decode [] = some [] := rfl

/-- Decoding the encoding of one scalar value, followed by any remainder,
recovers the scalar value. -/
theorem utf8Decode_encodeChar (c : Char) (rest : List Nat) :
    utf8Decode (utf8EncodeChar c ++ rest) = (utf8Decode rest).map (c :: ·) := by
  rw [utf8Decode_step_some (utf8DecodeStep_encodeChar c rest)]

/-- Decoding an encoded string followed by any remainder. -/
theorem utf8Decode_encode_append (cs : List Char) (rest : List Nat) :
    utf8Decode (utf8Encode cs ++ rest) = (utf8Decode rest).map (cs ++ ·) := by
  induction cs with
  | nil =>
    simp only [utf8Encode, List.flatMap_nil, List.nil_append]
    cases utf8Decode rest <;> rfl
  | cons c cs ih =>
    simp only [utf8Encode, List.flatMap_cons, List.append_assoc]
    rw [show cs.flatMap utf8EncodeChar = utf8Encode cs from rfl]
    rw [utf8Decode_encodeChar, ih]
    cases utf8Decode rest <;> rfl

/-- `String::from_utf8` inverts `str::as_bytes`. -/
theorem utf8Decode_encode (cs : List Char) : utf8Decode (utf8Encode cs) = some cs := by
  have h := utf8Decode_encode_append cs []
  rw [utf8Decode_nil] at h
  simpa using h

/-- Every byte of a single-scalar encoding below 0x80 is the scalar itself. -/
theorem utf8EncodeChar_mem_lt (c : Char) (b : Nat) (hb : b ∈ utf8EncodeChar c)
    (hlt : b < 0x80) : c.toNat = b := by
  unfold utf8EncodeChar at hb
  by_cases h1 : c.toNat < 0x80
  · simp only [if_pos h1, List.mem_singleton] at hb
    omega
  · by_cases h2 : c.toNat < 0x800
    · simp only [if_neg h1, if_pos h2, List.mem_cons, List.not_mem_nil, or_false] at hb
      rcases hb with hb | hb <;> omega
    · by_cases h3 : c.toNat < 0x10000
      · simp only [if_neg h1, if_neg h2, if_pos h3, List.mem_cons, List.not_mem_nil,
          or_false] at hb
        rcases hb with hb | hb | hb <;> omega
      · simp only [if_neg h1, if_neg h2, if_neg h3, List.mem_cons, List.not_mem_nil,
          or_false] at hb
        rcases hb with hb | hb | hb | hb <;> omega

/-- A byte below 0x80 occurs in an encoded string only where the corresponding
character occurs in the string. -/
theorem utf8Encode_mem_ascii (cs : List Char) (b : Nat) (hlt : b < 0x80)
    (hb : b ∈ utf8Encode cs) : Char.ofNat b ∈ cs := by
  induction cs with
  | nil => simp [utf8Encode] at hb
  | cons c cs ih =>
    simp only [utf8Encode, List.flatMap_cons, List.mem_append] at hb
    rcases hb with hb | hb
    · have := utf8EncodeChar_mem_lt c b hb hlt
      simp [← this, Char.ofNat_toNat]
    · exact List.mem_cons_of_mem _ (ih hb)

/-- The encoding of an ASCII character is the single byte of its code. -/
theorem utf8EncodeChar_ascii (c : Char) (h : c.toNat < 0x80) :
    utf8EncodeChar c = [c.toNat] := by
  simp [utf8EncodeChar, h]

theorem decimalCharsAux_digits (fuel : Nat) :
    ∀ n, ∀ c ∈ decimalCharsAux fuel n, 48 ≤ c.toNat ∧ c.toNat ≤ 57 := by
  induction fuel with
  | zero =>
    intro n c hc
    simp [decimalCharsAux] at hc
  | succ fuel ih =>
    intro n c hc
    unfold decimalCharsAux at hc
    by_cases h : n < 10
    · simp only [if_pos h, List.mem_singleton] at hc
      subst hc
      rw [toNat_ofNat _ (Or.inl (by omega))]
      omega
    · simp only [if_neg h, List.mem_append, List.mem_singleton] at hc
      rcases hc with hc | hc
      · exact ih (n / 10) c hc
      · subst hc
        have : n % 10 < 10 := Nat.mod_lt _ (by omega)
        rw [toNat_ofNat _ (Or.inl (by omega))]
        omega

theorem decimalChars_digits (n : Nat) :
    ∀ c ∈ decimalChars n, 48 ≤ c.toNat ∧ c.toNat ≤ 57 :=
  decimalCharsAux_digits (n + 1) n

theorem splitAtFirst_shorter {target : Nat} {l p s : List Nat}
    (h : splitAtFirst target l = some (p, s)) : s.length < l.length := by
  induction l generalizing p s with
  | nil => simp [splitAtFirst] at h
  | cons x xs ih =>
    simp only [splitAtFirst] at h
    by_cases hx : x = target
    · rw [if_pos hx] at h
      cases h
      simp
    · rw [if_neg hx] at h
      cases hsp : splitAtFirst target xs with
      | none => rw [hsp] at h; cases h
      | some q =>
        rw [hsp] at h
        cases h
        have := ih hsp
        simp
        omega

theorem splitAtFirst_append {target : Nat} (pre suf : List Nat)
    (hpre : target ∉ pre) :
    splitAtFirst target (pre ++ target :: suf) = some (pre, suf) := by
  induction pre with
  | nil => simp [splitAtFirst]
  | cons x xs ih =>
    have hx : x ≠ target := fun h => hpre (h ▸ List.mem_cons_self x xs)
    have hxs : target ∉ xs := fun h => hpre (List.mem_cons_of_mem x h)
    simp only [List.cons_append, splitAtFirst, if_neg hx, List.append_eq, ih hxs]
    rfl

theorem splitAtFirst_none {target : Nat} (l : List Nat) (h : target ∉ l) :
    splitAtFirst target l = none := by
  induction l with
  | nil => rfl
  | cons x xs ih =>
    have hx : x ≠ target := fun hh => h (hh ▸ List.mem_cons_self x xs)
    have hxs : target ∉ xs := fun hh => h (List.mem_cons_of_mem x hh)
    simp [splitAtFirst, if_neg hx, ih hxs]

theorem splitAtFirst_eq {target : Nat} {l p s : List Nat}
    (h : splitAtFirst target l = some (p, s)) :
    l = p ++ target :: s ∧ target ∉ p := by
  induction l generalizing p s with
  | nil => simp [splitAtFirst] at h
  | cons x xs ih =>
    simp only [splitAtFirst] at h
    by_cases hx : x = target
    · rw [if_pos hx] at h
      cases h
      simp [hx]
    · rw [if_neg hx] at h
      cases hsp : splitAtFirst target xs with
      | none => rw [hsp] at h; cases h
      | some q =>
        rw [hsp] at h
        cases h
        have := ih hsp
        simp only [List.cons_append, List.mem_cons]
        refine ⟨by rw [← this.1], fun hc => ?_⟩
        rcases hc with hc | hc
        · exact hx hc.symm
        · exact this.2 hc

theorem parseEntryStep_shorter {l : List Nat} {e : TreeEntry} {rest : List Nat}
    (h : parseEntryStep l = Except.ok (some (e, rest))) : rest.length < l.length := by
  by_cases hnil : l = []
  · rw [hnil] at h
    simp [parseEntryStep] at h
  · simp only [parseEntryStep, if_neg hnil] at h
    cases hsp : splitAtFirst 32 l with
    | none => rw [hsp] at h; cases h
    | some p1 =>
      obtain ⟨modeBytes, rest1⟩ := p1
      rw [hsp] at h
      simp only at h
      cases hd1 : utf8Decode modeBytes with
      | none => rw [hd1] at h; cases h
      | some modeChars =>
        rw [hd1] at h
        simp only at h
        cases hnl : splitAtFirst 0 rest1 with
        | none => rw [hnl] at h; cases h
        | some p2 =>
          obtain ⟨nameBytes, rest2⟩ := p2
          rw [hnl] at h
          simp only at h
          cases hd2 : utf8Decode nameBytes with
          | none => rw [hd2] at h; cases h
          | some nameChars =>
            rw [hd2] at h
            simp only at h
            by_cases hlen : rest2.length < SHA1_BYTES
            · rw [if_pos hlen] at h; cases h
            · rw [if_neg hlen] at h
              cases hfm : FileMode.from_str modeChars with
              | error e2 => rw [hfm] at h; cases h
              | ok mode =>
                rw [hfm] at h
                cases h
                have h1 := splitAtFirst_shorter hsp
                have h2 := splitAtFirst_shorter hnl
                simp only [List.length_drop]
                omega

/-- The fuel of `parseEntriesLoopAux` is irrelevant once it covers the input
length. -/
theorem parseEntriesLoopAux_congr : ∀ f1 f2 l, l.length ≤ f1 → l.length ≤ f2 →
    parseEntriesLoopAux f1 l = parseEntriesLoopAux f2 l := by
  intro f1
  induction f1 with
  | zero =>
    intro f2 l h1 _
    have : l = [] := List.length_eq_zero.1 (by omega)
    subst this
    cases f2 <;> rfl
  | succ f1 ih =>
    intro f2 l h1 h2
    match l with
    | [] => cases f2 <;> rfl
    | b :: r =>
      match f2 with
      | 0 => simp at h2
      | f2 + 1 =>
        simp only [parseEntriesLoopAux]
        cases hs : parseEntryStep (b :: r) with
        | error e => rfl
        | ok o =>
          match o with
          | none => rfl
          | some (e, rest) =>
            have hlt := parseEntryStep_shorter hs
            simp only [List.length_cons] at h1 h2 hlt
            show (parseEntriesLoopAux f1 rest).map (e :: ·)
              = (parseEntriesLoopAux f2 rest).map (e :: ·)
            rw [ih f2 rest (by omega) (by omega)]

theorem parseEntriesLoop_step_error {content : List Nat} {e : String}
    (h : parseEntryStep content = Except.error e) :
    parseEntriesLoop content = Except.error e := by
  match content with
  | [] => simp [parseEntryStep] at h
  | b :: r =>
    unfold parseEntriesLoop
    simp only [List.length_cons, parseEntriesLoopAux, h]

theorem parseEntriesLoop_step_none {content : List Nat}
    (h : parseEntryStep content = Except.ok none) :
    parseEntriesLoop content = Except.ok [] := by
  match content with
  | [] => rfl
  | b :: r =>
    unfold parseEntriesLoop
    simp only [List.length_cons, parseEntriesLoopAux, h]

theorem parseEntriesLoop_step_some {content : List Nat} {e : TreeEntry}
    {rest : List Nat} (h : parseEntryStep content = Except.ok (some (e, rest))) :
    parseEntriesLoop content = (parseEntriesLoop rest).map (e :: ·) := by
  match content with
  | [] => simp [parseEntryStep] at h
  | b :: r =>
    have hlt := parseEntryStep_shorter h
    simp only [List.length_cons] at hlt
    unfold parseEntriesLoop
    simp only [List.length_cons, parseEntriesLoopAux, h]
    rw [parseEntriesLoopAux_congr r.length rest.length rest (by omega) (by omega)]

theorem lowerHex_val (c : Char) (h : isLowerHexDigit c = true) :
    ∃ v, hexDigitVal c = some v ∧ v < 16 ∧ toLowerHexChar v = c := by
  have h' := of_decide_eq_true h
  rcases h' with ⟨h1, h2⟩ | ⟨h1, h2⟩
  · refine ⟨c.toNat - 48, ?_, by omega, ?_⟩
    · unfold hexDigitVal
      rw [if_pos ⟨h1, h2⟩]
    · unfold toLowerHexChar
      rw [if_pos (by omega), show 48 + (c.toNat - 48) = c.toNat by omega,
        Char.ofNat_toNat]
  · refine ⟨c.toNat - 87, ?_, by omega, ?_⟩
    · unfold hexDigitVal
      rw [if_neg (by omega), if_pos ⟨h1, h2⟩]
    · unfold toLowerHexChar
      rw [if_neg (by omega), show 87 + (c.toNat - 87) = c.toNat by omega,
        Char.ofNat_toNat]

theorem lowerHex_isAsciiHex (c : Char) (h : isLowerHexDigit c = true) :
    isAsciiHexDigit c = true := by
  have h' := of_decide_eq_true h
  exact decide_eq_true (by rcases h' with h' | h' <;> [exact Or.inl h'; exact Or.inr (Or.inl h')])

theorem hexPairsToBytes_roundtrip (cs : List Char)
    (hall : ∀ c ∈ cs, isLowerHexDigit c = true) (heven : cs.length % 2 = 0) :
    ∃ bs, hexPairsToBytes cs = Except.ok bs ∧ bytesToHexChars bs = cs ∧
      2 * bs.length = cs.length := by
  match cs with
  | [] => exact ⟨[], rfl, rfl, rfl⟩
  | [c] => simp at heven
  | c1 :: c2 :: rest =>
    obtain ⟨v1, hv1, hlt1, hc1⟩ := lowerHex_val c1 (hall c1 (by simp))
    obtain ⟨v2, hv2, hlt2, hc2⟩ := lowerHex_val c2 (hall c2 (by simp))
    obtain ⟨bs, hbs, hhex, hlen⟩ := hexPairsToBytes_roundtrip rest
      (fun c hc => hall c (by simp [hc])) (by simp only [List.length_cons] at heven ⊢; omega)
    refine ⟨(16 * v1 + v2) :: bs, ?_, ?_, ?_⟩
    · simp only [hexPairsToBytes, hv1, hv2, hbs]
      rfl
    · simp only [bytesToHexChars, List.flatMap_cons] at hhex ⊢
      rw [show byteToHexChars (16 * v1 + v2) = [toLowerHexChar v1, toLowerHexChar v2] by
        unfold byteToHexChars
        rw [show (16 * v1 + v2) / 16 = v1 by omega, show (16 * v1 + v2) % 16 = v2 by omega]]
      rw [hc1, hc2, hhex]
      rfl
    · simp only [List.length_cons]
      omega
termination_by cs.length

theorem hex_to_bytes_roundtrip (hash : List Char) (hlen : hash.length = 40)
    (hall : ∀ c ∈ hash, isLowerHexDigit c = true) :
    ∃ bs, hex_to_bytes hash = Except.ok bs ∧ bytesToHexChars bs = hash ∧
      bs.length = SHA1_BYTES := by
  have hval : validate_sha1 hash = Except.ok () := by
    unfold validate_sha1 SHA1_LENGTH
    rw [if_neg (by omega)]
    rw [if_neg (by
      simp only [not_not, List.all_eq_true]
      exact fun c hc => lowerHex_isAsciiHex c (hall c hc))]
  obtain ⟨bs, hbs, hhex, hblen⟩ := hexPairsToBytes_roundtrip hash hall (by omega)
  refine ⟨bs, ?_, hhex, by unfold SHA1_BYTES; omega⟩
  unfold hex_to_bytes
  rw [hval]
  exact hbs

theorem mode_from_str_as_str (m : FileMode) :
    FileMode.from_str m.as_str = Except.ok m := by
  cases m <;> rfl

theorem mode_bytes_no_space (m : FileMode) : 32 ∉ utf8Encode m.as_str := by
  cases m <;> decide

theorem mode_bytes_nonempty (m : FileMode) : utf8Encode m.as_str ≠ [] := by
  cases m <;> decide

/-- A null byte occurs in an encoded name only if the name contains the null
character. -/
theorem name_bytes_no_null (name : List Char) (h : Char.ofNat 0 ∉ name) :
    0 ∉ utf8Encode name :=
  fun hmem => h (utf8Encode_mem_ascii name 0 (by omega) hmem)

/-- One entry-loop step over one serialized entry: the mode, name and
fingerprint bytes are recovered, and the remainder is the rest of the
body. -/
theorem parseEntryStep_encoded (mode : FileMode) (name : List Char)
    (shaBytes tl : List Nat) (hname : Char.ofNat 0 ∉ name)
    (hsha : shaBytes.length = SHA1_BYTES) :
    parseEntryStep (utf8Encode mode.as_str ++ 32 :: (utf8Encode name ++ 0 :: (shaBytes ++ tl)))
      = Except.ok (some (⟨mode, name, bytesToHexChars shaBytes, mode.to_object_type⟩, tl)) := by
  have hne : utf8Encode mode.as_str ++ 32 :: (utf8Encode name ++ 0 :: (shaBytes ++ tl)) ≠ [] := by
    simp [mode_bytes_nonempty mode]
  have hsp := splitAtFirst_append (utf8Encode mode.as_str)
    (utf8Encode name ++ 0 :: (shaBytes ++ tl)) (mode_bytes_no_space mode)
  have hnl := splitAtFirst_append (utf8Encode name) (shaBytes ++ tl)
    (name_bytes_no_null name hname)
  have hlen : ¬ (shaBytes ++ tl).length < SHA1_BYTES := by
    simp only [List.length_append]
    omega
  simp only [parseEntryStep, if_neg hne, hsp, utf8Decode_encode, hnl, if_neg hlen,
    mode_from_str_as_str]
  rw [show (shaBytes ++ tl).take SHA1_BYTES = shaBytes by rw [← hsha]; exact List.take_left _ _,
    show (shaBytes ++ tl).drop SHA1_BYTES = tl by rw [← hsha]; exact List.drop_left _ _]

/-- The serialized body of well-formed entries parses back to exactly those
entries, and its byte length is the size precomputed by
`build_tree_content`. -/
theorem treeEntriesBody_roundtrip (entries : List (FileMode × List Char × List Char))
    (hwf : ∀ e ∈ entries, wfTreeInput e) :
    ∃ body, treeEntriesBody entries = Except.ok body ∧
      parseEntriesLoop body = Except.ok (entries.map entryRecord) ∧
      body.length = (entries.map treeEntrySize).sum := by
  induction entries with
  | nil =>
    refine ⟨[], rfl, ?_, rfl⟩
    exact parseEntriesLoop_step_none rfl
  | cons e rest ih =>
    obtain ⟨mode, name, sha⟩ := e
    obtain ⟨hname, hshalen, hshahex⟩ := hwf _ (List.mem_cons_self _ _)
    obtain ⟨shaBytes, hhex, hhexinv, hsblen⟩ := hex_to_bytes_roundtrip sha hshalen hshahex
    obtain ⟨tl, htl, hloop, htllen⟩ := ih (fun x hx => hwf x (List.mem_cons_of_mem _ hx))
    refine ⟨utf8Encode mode.as_str ++ 32 :: (utf8Encode name ++ 0 :: (shaBytes ++ tl)), ?_, ?_, ?_⟩
    · simp only [treeEntriesBody, hhex, htl]
      rfl
    · rw [parseEntriesLoop_step_some (parseEntryStep_encoded mode name shaBytes tl hname hsblen)]
      rw [hloop, hhexinv]
      rfl
    · simp only [List.length_append, List.length_cons, List.map_cons, List.sum_cons,
        treeEntrySize]
      omega

theorem utf8Encode_append (a b : List Char) :
    utf8Encode (a ++ b) = utf8Encode a ++ utf8Encode b := by
  simp [utf8Encode]

theorem utf8Encode_nul : utf8Encode [Char.ofNat 0] = [0] := by decide

/-- Encoding a string of ASCII characters is character-wise. -/
theorem utf8Encode_ascii_all (cs : List Char) (h : ∀ c ∈ cs, c.toNat < 0x80) :
    utf8Encode cs = cs.map Char.toNat := by
  induction cs with
  | nil => rfl
  | cons c cs ih =>
    simp only [utf8Encode, List.flatMap_cons, List.map_cons]
    rw [utf8EncodeChar_ascii c (h c (List.mem_cons_self _ _))]
    rw [show cs.flatMap utf8EncodeChar = utf8Encode cs from rfl,
      ih (fun x hx => h x (List.mem_cons_of_mem _ hx))]
    rfl

/-- A `"<type> <decimal>"` header contains no null character. -/
theorem nul_notMem_typeHeader (s : String) (hs : Char.ofNat 0 ∉ s.toList) (n : Nat) :
    Char.ofNat 0 ∉ s.toList ++ decimalChars n := by
  intro hmem
  rcases List.mem_append.1 hmem with h | h
  · exact hs h
  · have := decimalChars_digits n _ h
    have h0 : (Char.ofNat 0).toNat = 0 := by decide
    omega

/-- The bytes of a `"<type> <decimal>"` header are nonzero ASCII, provided
the type text is. -/
theorem typeHeader_bytes (s : String) (hs : ∀ c ∈ s.toList, 0 < c.toNat ∧ c.toNat < 128)
    (n : Nat) : ∀ b ∈ utf8Encode (s.toList ++ decimalChars n), 0 < b ∧ b < 128 := by
  intro b hb
  have hall : ∀ c ∈ s.toList ++ decimalChars n, 0 < c.toNat ∧ c.toNat < 128 := by
    intro c hc
    rcases List.mem_append.1 hc with h | h
    · exact hs c h
    · have := decimalChars_digits n c h
      omega
  rw [utf8Encode_ascii_all _ (fun c hc => (hall c hc).2)] at hb
  obtain ⟨c, hc, rfl⟩ := List.mem_map.1 hb
  exact hall c hc

/-- `parse_tree_entries` skips any null-free header and hands the remainder
to the entry loop. -/
theorem parse_tree_entries_header (hdr : List Char) (body : List Nat)
    (hnul : Char.ofNat 0 ∉ hdr) :
    parse_tree_entries (utf8Encode (hdr ++ [Char.ofNat 0]) ++ body)
      = parseEntriesLoop body := by
  rw [utf8Encode_append, utf8Encode_nul, List.append_assoc, List.singleton_append]
  unfold parse_tree_entries
  rw [splitAtFirst_append _ _ (name_bytes_no_null hdr hnul)]

theorem hexDigitVal_ascii (c : Char) (h : isAsciiHexDigit c = true) :
    ∃ v, hexDigitVal c = some v := by
  have h' := of_decide_eq_true h
  unfold hexDigitVal
  rcases h' with h' | h' | h'
  · exact ⟨_, by rw [if_pos h']⟩
  · exact ⟨_, by rw [if_neg (by omega), if_pos h']⟩
  · exact ⟨_, by rw [if_neg (by omega), if_neg (by omega), if_pos h']⟩

theorem hexPairsToBytes_length (cs : List Char)
    (hall : ∀ c ∈ cs, isAsciiHexDigit c = true) (heven : cs.length % 2 = 0) :
    ∃ bs, hexPairsToBytes cs = Except.ok bs ∧ 2 * bs.length = cs.length := by
  match cs with
  | [] => exact ⟨[], rfl, rfl⟩
  | [c] => simp at heven
  | c1 :: c2 :: rest =>
    obtain ⟨v1, hv1⟩ := hexDigitVal_ascii c1 (hall c1 (by simp))
    obtain ⟨v2, hv2⟩ := hexDigitVal_ascii c2 (hall c2 (by simp))
    obtain ⟨bs, hbs, hlen⟩ := hexPairsToBytes_length rest
      (fun c hc => hall c (by simp [hc])) (by simp only [List.length_cons] at heven ⊢; omega)
    refine ⟨(16 * v1 + v2) :: bs, ?_, ?_⟩
    · simp only [hexPairsToBytes, hv1, hv2, hbs]
      rfl
    · simp only [List.length_cons]
      omega
termination_by cs.length

theorem hex_to_bytes_length (hash : List Char) (hv : validate_sha1 hash = Except.ok ()) :
    ∃ bs, hex_to_bytes hash = Except.ok bs ∧ bs.length = SHA1_BYTES := by
  have hcond : ¬ hash.length ≠ SHA1_LENGTH ∧ ¬ ¬ hash.all isAsciiHexDigit := by
    by_contra hc
    unfold validate_sha1 at hv
    rcases Decidable.not_and_iff_or_not.1 hc with h | h
    · rw [if_pos (Decidable.not_not.1 h)] at hv
      cases hv
    · rw [if_neg ?_, if_pos (Decidable.not_not.1 h)] at hv
      · cases hv
      · intro hne
        rw [if_pos hne] at hv
        cases hv
  obtain ⟨hlen, hall⟩ := hcond
  unfold SHA1_LENGTH at hlen
  obtain ⟨bs, hbs, hblen⟩ := hexPairsToBytes_length hash
    (List.all_eq_true.1 (Decidable.not_not.1 hall)) (by omega)
  refine ⟨bs, ?_, by unfold SHA1_BYTES; omega⟩
  unfold hex_to_bytes
  rw [hv]
  exact hbs

/-- The serialized body of entries with valid fingerprints has exactly the
byte length that `build_tree_content` precomputes. -/
theorem treeEntriesBody_length (entries : List (FileMode × List Char × List Char))
    (hwf : ∀ e ∈ entries, validate_sha1 e.2.2 = Except.ok ()) :
    ∃ body, treeEntriesBody entries = Except.ok body ∧
      body.length = (entries.map treeEntrySize).sum := by
  induction entries with
  | nil => exact ⟨[], rfl, rfl⟩
  | cons e rest ih =>
    obtain ⟨mode, name, sha⟩ := e
    obtain ⟨shaBytes, hhex, hsblen⟩ := hex_to_bytes_length sha (hwf _ (List.mem_cons_self _ _))
    obtain ⟨tl, htl, htllen⟩ := ih (fun x hx => hwf x (List.mem_cons_of_mem _ hx))
    refine ⟨utf8Encode mode.as_str ++ 32 :: (utf8Encode name ++ 0 :: (shaBytes ++ tl)),
      ?_, ?_⟩
    · simp only [treeEntriesBody, hhex, htl]
      rfl
    · simp only [List.length_append, List.length_cons, List.map_cons, List.sum_cons,
        treeEntrySize]
      omega

theorem splitOnChar_append (pre suf : List Char) (a : Char) (h : a ∉ pre) :
    (pre ++ a :: suf).splitOn a = pre :: suf.splitOn a := by
  unfold List.splitOn
  exact List.splitOnP_first (fun x => x == a) pre
    (fun x hx he => h (eq_of_beq he ▸ hx)) a (beq_self_eq_true a) suf

theorem splitOnChar_single (l : List Char) (a : Char) (h : a ∉ l) :
    l.splitOn a = [l] := by
  unfold List.splitOn
  exact List.splitOnP_eq_single (fun x => x == a) l
    (fun x hx he => h (eq_of_beq he ▸ hx))

/-- `trim_end` is the identity on text without trailing whitespace. -/
theorem rustTrimEnd_id (cs : List Char)
    (h : ∀ c, cs.getLast? = some c → rustIsWhitespace c = false) :
    rustTrimEnd cs = cs := by
  unfold rustTrimEnd
  match hrev : cs.reverse with
  | [] =>
    have : cs = [] := by simpa using congrArg List.reverse hrev
    simp [this]
  | c :: rest =>
    have hlast : cs.getLast? = some c := by
      rw [← List.head?_reverse, hrev]
      rfl
    rw [List.dropWhile_cons, h c hlast, if_neg (by decide), ← hrev,
      List.reverse_reverse]

/-- A null character in a string puts a null byte in its encoding. -/
theorem nul_mem_utf8Encode (cs : List Char) (h : Char.ofNat 0 ∈ cs) :
    0 ∈ utf8Encode cs := by
  refine List.mem_flatMap.2 ⟨Char.ofNat 0, h, ?_⟩
  decide

/-- A successful decoding step came from the encoding of its character: the
strict decoder accepts exactly the canonical encodings. -/
theorem utf8DecodeStep_inv {l : List Nat} {c : Char} {rest : List Nat}
    (h : utf8DecodeStep l = some (c, rest)) : l = utf8EncodeChar c ++ rest := by
  match l with
  | [] => simp [utf8DecodeStep] at h
  | b1 :: r =>
    simp only [utf8DecodeStep] at h
    by_cases h1 : b1 < 0x80
    · rw [if_pos h1] at h
      cases h
      rw [utf8EncodeChar_ascii _ (by rw [toNat_ofNat _ (Or.inl (by omega))]; omega),
        toNat_ofNat _ (Or.inl (by omega))]
      rfl
    · rw [if_neg h1] at h
      match r with
      | [] => cases h
      | b2 :: r2 =>
        simp only at h
        cases hv2 : utf8Val2 b1 b2 with
        | some v =>
          rw [hv2] at h
          cases h
          unfold utf8Val2 at hv2
          split at hv2
          · next hc =>
            rw [Option.some.injEq] at hv2
            subst hv2
            have hval : Nat.isValidChar ((b1 - 0xC0) * 64 + (b2 - 0x80)) :=
              Or.inl (by omega)
            unfold utf8EncodeChar
            rw [toNat_ofNat _ hval]
            rw [if_neg (by omega), if_pos (by omega)]
            rw [show 0xC0 + ((b1 - 0xC0) * 64 + (b2 - 0x80)) / 64 = b1 by omega,
              show 0x80 + ((b1 - 0xC0) * 64 + (b2 - 0x80)) % 64 = b2 by omega]
            rfl
          · cases hv2
        | none =>
          rw [hv2] at h
          match r2 with
          | [] => cases h
          | b3 :: r3 =>
            simp only at h
            cases hv3 : utf8Val3 b1 b2 b3 with
            | some v =>
              rw [hv3] at h
              cases h
              unfold utf8Val3 at hv3
              dsimp only at hv3
              split at hv3
              · next hc =>
                split at hv3
                · next hr =>
                  rw [Option.some.injEq] at hv3
                  subst hv3
                  have hval : Nat.isValidChar
                      ((b1 - 0xE0) * 4096 + (b2 - 0x80) * 64 + (b3 - 0x80)) := by
                    rcases hr.2 with hlo | hhi
                    · exact Or.inl hlo
                    · exact Or.inr ⟨by omega, by omega⟩
                  unfold utf8EncodeChar
                  rw [toNat_ofNat _ hval]
                  rw [if_neg (by omega), if_neg (by omega), if_pos (by omega)]
                  rw [show 0xE0 + ((b1 - 0xE0) * 4096 + (b2 - 0x80) * 64 + (b3 - 0x80))
                        / 4096 = b1 by omega,
                    show 0x80 + ((b1 - 0xE0) * 4096 + (b2 - 0x80) * 64 + (b3 - 0x80))
                        / 64 % 64 = b2 by omega,
                    show 0x80 + ((b1 - 0xE0) * 4096 + (b2 - 0x80) * 64 + (b3 - 0x80))
                        % 64 = b3 by omega]
                  rfl
                · cases hv3
              · cases hv3
            | none =>
              rw [hv3] at h
              match r3 with
              | [] => cases h
              | b4 :: r4 =>
                simp only at h
                cases hv4 : utf8Val4 b1 b2 b3 b4 with
                | some v =>
                  rw [hv4] at h
                  cases h
                  unfold utf8Val4 at hv4
                  dsimp only at hv4
                  split at hv4
                  · next hc =>
                    split at hv4
                    · next hr =>
                      rw [Option.some.injEq] at hv4
                      subst hv4
                      have hval : Nat.isValidChar ((b1 - 0xF0) * 0x40000 +
                          (b2 - 0x80) * 4096 + (b3 - 0x80) * 64 + (b4 - 0x80)) :=
                        Or.inr ⟨by omega, by omega⟩
                      unfold utf8EncodeChar
                      rw [toNat_ofNat _ hval]
                      rw [if_neg (by omega), if_neg (by omega), if_neg (by omega)]
                      rw [show 0xF0 + ((b1 - 0xF0) * 0x40000 + (b2 - 0x80) * 4096 +
                            (b3 - 0x80) * 64 + (b4 - 0x80)) / 0x40000 = b1 by omega,
                        show 0x80 + ((b1 - 0xF0) * 0x40000 + (b2 - 0x80) * 4096 +
                            (b3 - 0x80) * 64 + (b4 - 0x80)) / 4096 % 64 = b2 by omega,
                        show 0x80 + ((b1 - 0xF0) * 0x40000 + (b2 - 0x80) * 4096 +
                            (b3 - 0x80) * 64 + (b4 - 0x80)) / 64 % 64 = b3 by omega,
                        show 0x80 + ((b1 - 0xF0) * 0x40000 + (b2 - 0x80) * 4096 +
                            (b3 - 0x80) * 64 + (b4 - 0x80)) % 64 = b4 by omega]
                      rfl
                    · cases hv4
                  · cases hv4
                | none =>
                  rw [hv4] at h
                  cases h

/-- Decoding succeeds only on the canonical encoding of its result, stated
with an explicit length bound for the induction. -/
theorem utf8Decode_inv_aux : ∀ (n : Nat) (l : List Nat), l.length = n →
    ∀ (s : List Char), utf8Decode l = some s → utf8Encode s = l := by
  intro n
  induction n using Nat.strong_induction_on with
  | _ n ih =>
    intro l hn s h
    match l with
    | [] =>
      cases show s = [] by simpa [utf8Decode_nil] using h.symm
      rfl
    | b :: r =>
      cases hs : utf8DecodeStep (b :: r) with
      | none =>
        rw [utf8Decode_step_none hs] at h
        simp at h
      | some p =>
        obtain ⟨c, rest⟩ := p
        rw [utf8Decode_step_some hs] at h
        cases hrec : utf8Decode rest with
        | none => rw [hrec] at h; cases h
        | some s' =>
          rw [hrec] at h
          cases h
          have hlt := utf8DecodeStep_shorter hs
          have hn' : rest.length < n := by omega
          have := ih rest.length hn' rest rfl s' hrec
          rw [utf8DecodeStep_inv hs]
          simp only [utf8Encode, List.flatMap_cons]
          rw [show s'.flatMap utf8EncodeChar = utf8Encode s' from rfl, this]

/-- Decoding succeeds only on the canonical encoding of its result. -/
theorem utf8Decode_inv (l : List Nat) (s : List Char) (h : utf8Decode l = some s) :
    utf8Encode s = l :=
  utf8Decode_inv_aux l.length l rfl s h

/-- A prefix relation forces the first characters to agree. -/
theorem not_prefix_of_head_ne (p l : List Char) (c d : Char) (hp : p.head? = some c)
    (hl : l.head? = some d) (hne : c ≠ d) : ¬ (p <+: l) := by
  intro hpre
  match p, l with
  | [], _ => cases hp
  | _, [] => cases hl
  | a :: p', b :: l' =>
    cases hp
    cases hl
    exact hne (List.cons_prefix_cons.1 hpre).1

theorem storeWrite_idem (path : List Char) (v : List Nat) (st : ObjStore) :
    storeWrite path v (storeWrite path v st) = storeWrite path v st := by
  induction st with
  | nil => simp [storeWrite]
  | cons p rest ih =>
    obtain ⟨q, w⟩ := p
    by_cases hq : q = path
    · simp [storeWrite, hq]
    · simp only [storeWrite, if_neg hq]
      rw [ih]

theorem storeRead_write (path : List Char) (v : List Nat) (st : ObjStore) :
    storeRead path (storeWrite path v st) = some v := by
  induction st with
  | nil => simp [storeWrite, storeRead]
  | cons p rest ih =>
    obtain ⟨q, w⟩ := p
    by_cases hq : q = path
    · simp [storeWrite, storeRead, hq]
    · simp only [storeWrite, if_neg hq, storeRead]
      exact ih

/-- Inversion of a successful `validate_sha1`: 40 characters, all hex. -/
theorem validate_sha1_ok (hash : List Char) (hv : validate_sha1 hash = Except.ok ()) :
    hash.length = 40 ∧ ∀ c ∈ hash, isAsciiHexDigit c = true := by
  unfold validate_sha1 at hv
  split at hv
  · cases hv
  · next h1 =>
    split at hv
    · cases hv
    · next h2 =>
      refine ⟨?_, List.all_eq_true.1 (Decidable.not_not.1 h2)⟩
      unfold SHA1_LENGTH at h1
      omega

/-- The header of a no-parent commit, reshaped into its three
newline-terminated lines. -/
theorem commitHeaderChars_shape (T : List Char) (ts : Nat) :
    commitHeaderChars T none ts
      = ("tree ".toList ++ T) ++ '\n' ::
        (authorLineBody ts ++ '\n' :: (committerLineBody ts ++ '\n' :: [])) := by
  have hlit : " +0000\n".toList = " +0000".toList ++ ['\n'] := by decide
  unfold commitHeaderChars authorLineBody committerLineBody
  rw [hlit]
  simp [List.append_assoc]

/-- A newline never occurs in an author/committer line body. -/
theorem nl_notMem_lineBody (s : String) (hs : '\n' ∉ s.toList) (ts : Nat) :
    '\n' ∉ s.toList ++ decimalChars ts ++ " +0000".toList := by
  intro hm
  rcases List.mem_append.1 hm with hm | hm
  · rcases List.mem_append.1 hm with hm | hm
    · exact hs hm
    · have := decimalChars_digits ts _ hm
      have h10 : ('\n').toNat = 10 := by decide
      omega
  · revert hm
    decide

/-- An ASCII character occupies one UTF-8 byte. -/
theorem utf8Size_ascii (c : Char) (h : c.toNat < 128) : c.utf8Size = 1 := by
  unfold Char.utf8Size
  rw [if_pos]
  rw [UInt32.le_def, BitVec.le_def]
  show c.val.toBitVec.toNat ≤ 127
  have hval : c.val.toBitVec.toNat = c.toNat := rfl
  omega

theorem rustSliceTo_zero (l : List Char) : rustSliceTo l 0 = some [] := by
  cases l <;> rfl

theorem rustSliceFrom_zero (l : List Char) : rustSliceFrom l 0 = some l := by
  cases l <;> rfl

theorem rustSliceTo_ascii_cons (c : Char) (cs : List Char) (n : Nat)
    (hc : c.toNat < 128) (hn : 0 < n) :
    rustSliceTo (c :: cs) n = (rustSliceTo cs (n - 1)).map (c :: ·) := by
  match n, hn with
  | n + 1, _ =>
    simp only [rustSliceTo, utf8Size_ascii c hc]
    rw [if_pos (by omega)]

theorem rustSliceFrom_ascii_cons (c : Char) (cs : List Char) (n : Nat)
    (hc : c.toNat < 128) (hn : 0 < n) :
    rustSliceFrom (c :: cs) n = rustSliceFrom cs (n - 1) := by
  match n, hn with
  | n + 1, _ =>
    simp only [rustSliceFrom, utf8Size_ascii c hc]
    rw [if_pos (by omega)]

/-- A hex digit is ASCII. -/
theorem hexDigit_toNat_lt (c : Char) (h : isAsciiHexDigit c = true) : c.toNat < 128 := by
  have h' := of_decide_eq_true h
  omega

/-! ## The claims -/

/-- C1 (amended): for every list of tree entries whose names contain no null
character and whose fingerprints are 40 lowercase hex digits, decoding the
encoded tree payload returns exactly the input entries — same modes, names
and fingerprints, in the input's given order, whether or not that order is
sorted (the codec does not sort, and does not require sortedness). As stated
the claim is false: a fingerprint with an uppercase hex digit is valid for
the encoder but is returned lowercased by the decoder (see the
counterexample). -/
theorem C1_tree_codec_roundtrip (entries : List (FileMode × List Char × List Char))
    (hwf : ∀ e ∈ entries, wfTreeInput e) :
    (build_tree_content entries).bind parse_tree_entries
      = Except.ok (entries.map entryRecord) := by
  obtain ⟨body, hbody, hloop, _⟩ := treeEntriesBody_roundtrip entries hwf
  unfold build_tree_content
  rw [hbody]
  show parse_tree_entries (utf8Encode ("tree ".toList
    ++ decimalChars (entries.map treeEntrySize).sum ++ [Char.ofNat 0]) ++ body) = _
  rw [parse_tree_entries_header _ _ (nul_notMem_typeHeader "tree " (by decide) _)]
  exact hloop

/-- Witness for C1: a concrete sorted singleton list with a lowercase
fingerprint round-trips. -/
theorem C1_tree_codec_roundtrip_witness :
    (∀ e ∈ [(FileMode.RegularFile, "a".toList, List.replicate 40 'a')], wfTreeInput e) ∧
    (build_tree_content [(FileMode.RegularFile, "a".toList, List.replicate 40 'a')]).bind
        parse_tree_entries
      = Except.ok ([(FileMode.RegularFile, "a".toList,
          List.replicate 40 'a')].map entryRecord) :=
  ⟨by decide, C1_tree_codec_roundtrip _ (by decide)⟩

/-- C1 counterexample: the claim as stated fails on a sorted singleton whose
fingerprint is 40 uppercase hex digits — a valid 40-hex fingerprint by the
code's own `validate_sha1` — because the decoder re-renders the raw bytes in
lowercase: the round trip returns the lowercase fingerprint, not the
input. -/
theorem C1_roundtrip_uppercase_counterexample :
    (∀ e ∈ [(FileMode.RegularFile, "a".toList, List.replicate 40 'A')],
        validate_sha1 e.2.2 = Except.ok ()) ∧
    (build_tree_content [(FileMode.RegularFile, "a".toList, List.replicate 40 'A')]).bind
        parse_tree_entries
      = Except.ok [⟨FileMode.RegularFile, "a".toList, List.replicate 40 'a',
          GitObjectType.Blob⟩] ∧
    (build_tree_content [(FileMode.RegularFile, "a".toList, List.replicate 40 'A')]).bind
        parse_tree_entries
      ≠ Except.ok ([(FileMode.RegularFile, "a".toList,
          List.replicate 40 'A')].map entryRecord) := by
  refine ⟨by decide, by decide, by decide⟩

/-- C10: `parse_tree_entries` skips everything before the first null byte
without any validation: whatever null-free bytes stand in place of the
header — whether or not the type token is `tree` and whether or not a
declared length matches — parsing proceeds identically on the remainder, and
succeeds whenever the remainder is a well-formed entry sequence. -/
theorem C10_header_skipped_unchecked (hdr : List Nat)
    (entries : List (FileMode × List Char × List Char))
    (hhdr : 0 ∉ hdr) (hwf : ∀ e ∈ entries, wfTreeInput e) :
    (∀ rest : List Nat, parse_tree_entries (hdr ++ 0 :: rest) = parseEntriesLoop rest) ∧
    ∃ body, treeEntriesBody entries = Except.ok body ∧
      parse_tree_entries (hdr ++ 0 :: body) = Except.ok (entries.map entryRecord) := by
  have hskip : ∀ rest : List Nat,
      parse_tree_entries (hdr ++ 0 :: rest) = parseEntriesLoop rest := by
    intro rest
    unfold parse_tree_entries
    rw [splitAtFirst_append hdr rest hhdr]
  obtain ⟨body, hbody, hloop, _⟩ := treeEntriesBody_roundtrip entries hwf
  exact ⟨hskip, body, hbody, by rw [hskip body]; exact hloop⟩

/-- Witness for C10: a payload whose header reads `blob 999` — wrong type
token and wrong declared length — still decodes the directory entry after
the null byte. -/
theorem C10_header_skipped_unchecked_witness :
    (∀ rest : List Nat,
      parse_tree_entries (strBytes "blob 999" ++ 0 :: rest) = parseEntriesLoop rest) ∧
    ∃ body, treeEntriesBody [(FileMode.Directory, "d".toList, List.replicate 40 'f')]
        = Except.ok body ∧
      parse_tree_entries (strBytes "blob 999" ++ 0 :: body)
        = Except.ok ([(FileMode.Directory, "d".toList,
            List.replicate 40 'f')].map entryRecord) :=
  C10_header_skipped_unchecked _ _ (by decide) (by decide)

/-- C3 (amended): unframing fails exactly when the payload contains no null
byte (for `cat_file`, also when the payload is not valid UTF-8, which is
outside this statement's hypotheses): with no null byte, `parse_tree_entries`
fails with its missing-separator error and `cat_file`'s pretty-printing
fails with its own; when a null byte exists, `parse_tree_entries` proceeds
on the bytes after the first null byte regardless of what the header bytes
say — the type token and the declared length are never examined. As stated,
the claim is false: an unrecognized type token or a mismatched declared
length does not cause a failure (see the counterexample). -/
theorem C3_unframe_failure_characterization (content : List Nat) :
    (0 ∉ content →
      parse_tree_entries content
        = Except.error "Invalid tree object: missing null separator") ∧
    (∀ hdr rest, content = hdr ++ 0 :: rest → 0 ∉ hdr →
      parse_tree_entries content = parseEntriesLoop rest) ∧
    (∀ s, utf8Decode content = some s → 0 ∉ content →
      catFilePretty content
        = Except.error "Invalid object format: missing null separator") := by
  refine ⟨?_, ?_, ?_⟩
  · intro h0
    unfold parse_tree_entries
    rw [splitAtFirst_none content h0]
  · intro hdr rest hc h0
    subst hc
    unfold parse_tree_entries
    rw [splitAtFirst_append hdr rest h0]
  · intro s hdec h0
    have henc := utf8Decode_inv content s hdec
    have hnos : Char.ofNat 0 ∉ s := fun hmem => h0 (henc ▸ nul_mem_utf8Encode s hmem)
    unfold catFilePretty
    rw [hdec]
    dsimp only
    rw [splitOnChar_single s _ hnos]
    rfl

/-- Witness for C3 at concrete payloads with and without a null byte. -/
theorem C3_unframe_failure_characterization_witness :
    parse_tree_entries (strBytes "just bytes")
      = Except.error "Invalid tree object: missing null separator" ∧
    parse_tree_entries (strBytes "tree 0" ++ 0 :: []) = parseEntriesLoop [] ∧
    catFilePretty (strBytes "just bytes")
      = Except.error "Invalid object format: missing null separator" :=
  ⟨(C3_unframe_failure_characterization _).1 (by decide),
   (C3_unframe_failure_characterization _).2.1 (strBytes "tree 0") [] rfl (by decide),
   (C3_unframe_failure_characterization _).2.2 "just bytes".toList (by decide) (by decide)⟩

/-- C3 counterexample: a payload whose type token is `xyz` — recognized by
nothing — and whose declared length `999` matches nothing is unframed
without complaint by both `parse_tree_entries` and `cat_file`'s
pretty-printing, where the claim as stated requires a `FormatError`. -/
theorem C3_unrecognized_type_counterexample :
    parse_tree_entries (strBytes "xyz 999\x00") = Except.ok [] ∧
    catFilePretty (strBytes "xyz 999\x00hello") = Except.ok "hello".toList :=
  ⟨by decide, by decide⟩

/-- C2 (amended): pretty-printing a stored blob returns exactly the original
body for every body that is valid UTF-8, contains no null byte, and does not
end in whitespace. As stated — for every body, including bodies with null
bytes, trailing whitespace or non-UTF-8 bytes — the claim is false:
`cat_file` keeps only the text between the first and second null byte and
trims trailing whitespace (see the counterexample). -/
theorem C2_blob_pretty_roundtrip (body : List Char)
    (hnul : Char.ofNat 0 ∉ body)
    (hws : ∀ c, body.getLast? = some c → rustIsWhitespace c = false) :
    catFilePretty (create_blob_object (utf8Encode body)) = Except.ok body := by
  have hhdr := nul_notMem_typeHeader "blob " (by decide) (utf8Encode body).length
  unfold create_blob_object
  rw [← utf8Encode_append]
  unfold catFilePretty
  rw [utf8Decode_encode]
  dsimp only
  rw [show ("blob ".toList ++ decimalChars (utf8Encode body).length ++ [Char.ofNat 0])
        ++ body
      = ("blob ".toList ++ decimalChars (utf8Encode body).length) ++ Char.ofNat 0 :: body
    from by simp]
  rw [splitOnChar_append _ _ _ hhdr, splitOnChar_single body _ hnul]
  show Except.ok (rustTrimEnd body) = Except.ok body
  rw [rustTrimEnd_id body hws]

/-- Witness for C2 at the body `hello`. -/
theorem C2_blob_pretty_roundtrip_witness :
    catFilePretty (create_blob_object (utf8Encode "hello".toList))
      = Except.ok "hello".toList :=
  C2_blob_pretty_roundtrip "hello".toList (by decide) (by decide)

/-- C2 counterexample: storing the body `"hi\n"` and pretty-printing it back
yields `"hi"` — the trailing newline is trimmed — not the original body, on
a body the claim as stated covers (trailing whitespace). -/
theorem C2_catFile_trim_counterexample :
    catFilePretty (create_blob_object (strBytes "hi\n")) = Except.ok "hi".toList ∧
    catFilePretty (create_blob_object (strBytes "hi\n")) ≠ Except.ok "hi\n".toList :=
  ⟨by decide, by decide⟩

/-- C4: every payload produced by the three builders decomposes as an
all-ASCII, null-free header, one null byte, and the body, where the decimal
field in the header is exactly the number of body bytes after that null
byte; for the tree builder the body is defined for entries with valid
40-hex fingerprints and its length equals the precomputed size. -/
theorem C4_header_length_invariant (body : List Nat) (tree_hash : List Char)
    (parent : Option (List Char)) (msg : List Char) (ts : Nat)
    (entries : List (FileMode × List Char × List Char))
    (hwf : ∀ e ∈ entries, validate_sha1 e.2.2 = Except.ok ()) :
    (create_blob_object body
        = utf8Encode ("blob ".toList ++ decimalChars body.length) ++ 0 :: body
      ∧ ∀ b ∈ utf8Encode ("blob ".toList ++ decimalChars body.length),
          0 < b ∧ b < 128) ∧
    (create_commit_object tree_hash parent msg ts
        = utf8Encode ("commit ".toList ++ decimalChars
            (utf8Encode (create_commit_content tree_hash parent msg ts)).length)
          ++ 0 :: utf8Encode (create_commit_content tree_hash parent msg ts)
      ∧ ∀ b ∈ utf8Encode ("commit ".toList ++ decimalChars
            (utf8Encode (create_commit_content tree_hash parent msg ts)).length),
          0 < b ∧ b < 128) ∧
    (∃ tbody, build_tree_content entries
        = Except.ok (utf8Encode ("tree ".toList ++ decimalChars tbody.length)
            ++ 0 :: tbody)
      ∧ tbody.length = (entries.map treeEntrySize).sum
      ∧ ∀ b ∈ utf8Encode ("tree ".toList ++ decimalChars tbody.length),
          0 < b ∧ b < 128) := by
  refine ⟨⟨?_, typeHeader_bytes "blob " (by decide) _⟩,
    ⟨?_, typeHeader_bytes "commit " (by decide) _⟩, ?_⟩
  · unfold create_blob_object
    rw [utf8Encode_append, utf8Encode_nul]
    simp [List.append_assoc]
  · unfold create_commit_object
    dsimp only
    rw [utf8Encode_append, utf8Encode_nul]
    simp [List.append_assoc]
  · obtain ⟨tbody, htb, hlen⟩ := treeEntriesBody_length entries hwf
    refine ⟨tbody, ?_, hlen, typeHeader_bytes "tree " (by decide) _⟩
    unfold build_tree_content
    rw [htb]
    show Except.ok (utf8Encode ("tree ".toList
      ++ decimalChars (entries.map treeEntrySize).sum ++ [Char.ofNat 0]) ++ tbody) = _
    rw [utf8Encode_append, utf8Encode_nul, hlen]
    simp [List.append_assoc]

/-- Witness for C4 at a concrete body, commit and entry list (the entry's
fingerprint is uppercase hex, which `validate_sha1` accepts). -/
theorem C4_header_length_invariant_witness :
    (create_blob_object [104]
        = utf8Encode ("blob ".toList ++ decimalChars [104].length) ++ 0 :: [104]
      ∧ ∀ b ∈ utf8Encode ("blob ".toList ++ decimalChars [104].length),
          0 < b ∧ b < 128) ∧
    (create_commit_object (List.replicate 40 '0') none "m".toList 7
        = utf8Encode ("commit ".toList ++ decimalChars
            (utf8Encode (create_commit_content (List.replicate 40 '0') none
              "m".toList 7)).length)
          ++ 0 :: utf8Encode (create_commit_content (List.replicate 40 '0') none
              "m".toList 7)
      ∧ ∀ b ∈ utf8Encode ("commit ".toList ++ decimalChars
            (utf8Encode (create_commit_content (List.replicate 40 '0') none
              "m".toList 7)).length),
          0 < b ∧ b < 128) ∧
    (∃ tbody, build_tree_content [(FileMode.Directory, "d".toList, List.replicate 40 'A')]
        = Except.ok (utf8Encode ("tree ".toList ++ decimalChars tbody.length)
            ++ 0 :: tbody)
      ∧ tbody.length = ([(FileMode.Directory, "d".toList,
          List.replicate 40 'A')].map treeEntrySize).sum
      ∧ ∀ b ∈ utf8Encode ("tree ".toList ++ decimalChars tbody.length),
          0 < b ∧ b < 128) :=
  C4_header_length_invariant [104] (List.replicate 40 '0') none "m".toList 7
    [(FileMode.Directory, "d".toList, List.replicate 40 'A')] (by decide)

/-- C9: a commit built with no parent starts with the line `tree <T>`, its
header section (the lines before the blank separator) contains no line
beginning with `parent`, and the whole payload ends with the message
followed by a newline. -/
theorem C9_commit_no_parent (T msg : List Char) (ts : Nat)
    (hT : validate_sha1 T = Except.ok ()) :
    (("tree ".toList ++ T ++ ['\n']) <+: create_commit_content T none msg ts) ∧
    (∀ l ∈ (commitHeaderChars T none ts).splitOn '\n', ¬ ("parent".toList <+: l)) ∧
    ((msg ++ ['\n']) <:+ create_commit_content T none msg ts) := by
  have hall := (validate_sha1_ok T hT).2
  have hnlT : '\n' ∉ T := by
    intro hm
    have := hall '\n' hm
    revert this
    decide
  have hnlA : '\n' ∉ ("tree ".toList ++ T) := by
    intro hm
    rcases List.mem_append.1 hm with hm | hm
    · revert hm
      decide
    · exact hnlT hm
  refine ⟨?_, ?_, ?_⟩
  · unfold create_commit_content
    rw [commitHeaderChars_shape]
    refine ⟨(authorLineBody ts ++ '\n' :: (committerLineBody ts ++ '\n' :: []))
      ++ '\n' :: (msg ++ ['\n']), ?_⟩
    simp [List.append_assoc]
  · intro l hl
    have hnlB : '\n' ∉ authorLineBody ts :=
      nl_notMem_lineBody "author Hugo <test@example.com> " (by decide) ts
    have hnlC : '\n' ∉ committerLineBody ts :=
      nl_notMem_lineBody "committer Hugo <test@example.com> " (by decide) ts
    rw [commitHeaderChars_shape, splitOnChar_append _ _ _ hnlA,
      splitOnChar_append _ _ _ hnlB, splitOnChar_append _ _ _ hnlC] at hl
    simp only [List.mem_cons, List.splitOn_nil, List.not_mem_nil, or_false] at hl
    rcases hl with rfl | rfl | rfl | rfl
    · exact not_prefix_of_head_ne _ _ 'p' 't' rfl
        (by rw [List.head?_append]; rfl) (by decide)
    · exact not_prefix_of_head_ne _ _ 'p' 'a' rfl
        (by unfold authorLineBody; rw [List.head?_append, List.head?_append]; rfl)
        (by decide)
    · exact not_prefix_of_head_ne _ _ 'p' 'c' rfl
        (by unfold committerLineBody; rw [List.head?_append, List.head?_append]; rfl)
        (by decide)
    · intro hp
      obtain ⟨t, ht⟩ := hp
      simp at ht
  · refine ⟨commitHeaderChars T none ts ++ ['\n'], ?_⟩
    unfold create_commit_content
    simp [List.append_assoc]

/-- Witness for C9 at a concrete fingerprint, message and timestamp. -/
theorem C9_commit_no_parent_witness :
    (("tree ".toList ++ List.replicate 40 '0' ++ ['\n'])
      <+: create_commit_content (List.replicate 40 '0') none "msg".toList 0) ∧
    (∀ l ∈ (commitHeaderChars (List.replicate 40 '0') none 0).splitOn '\n',
      ¬ ("parent".toList <+: l)) ∧
    (("msg".toList ++ ['\n'])
      <:+ create_commit_content (List.replicate 40 '0') none "msg".toList 0) :=
  C9_commit_no_parent (List.replicate 40 '0') "msg".toList 0 (by decide)

/-- C8: on every syntactically valid 40-hex-digit fingerprint,
`git_object_path` is total — the byte slicing cannot panic — and returns
`.git/objects/<first two characters>/<remaining 38 characters>`. -/
theorem C8_git_object_path_total (hash : List Char)
    (hv : validate_sha1 hash = Except.ok ()) :
    git_object_path hash
      = some (".git/objects/".toList ++ hash.take 2 ++ '/' :: hash.drop 2) := by
  obtain ⟨hlen, hall⟩ := validate_sha1_ok hash hv
  match hash, hlen with
  | c1 :: c2 :: rest, _ =>
    have h1 : c1.toNat < 128 := hexDigit_toNat_lt c1 (hall c1 (by simp))
    have h2 : c2.toNat < 128 := hexDigit_toNat_lt c2 (hall c2 (by simp))
    unfold git_object_path
    rw [rustSliceTo_ascii_cons c1 _ 2 h1 (by omega),
      rustSliceTo_ascii_cons c2 _ 1 h2 (by omega), rustSliceTo_zero,
      rustSliceFrom_ascii_cons c1 _ 2 h1 (by omega),
      rustSliceFrom_ascii_cons c2 _ 1 h2 (by omega), rustSliceFrom_zero]
    rfl

/-- Witness for C8 at the all-zero fingerprint. -/
theorem C8_git_object_path_total_witness :
    git_object_path (List.replicate 40 '0')
      = some (".git/objects/".toList ++ (List.replicate 40 '0').take 2
          ++ '/' :: (List.replicate 40 '0').drop 2) :=
  C8_git_object_path_total (List.replicate 40 '0') (by decide)

/-- C7: writing the same bytes twice returns the same fingerprint both
times, the second write is a no-op on the store (same path, same contents,
hence no error from the overwriting `fs::write`), and the stored object at
the derived path is the compressed content. -/
theorem C7_put_idempotent (sha1 : List Nat → List Char)
    (compress : List Nat → List Nat) (content : List Nat) (st : ObjStore) :
    (write_git_object sha1 compress content
        (write_git_object sha1 compress content st).2).1
      = (write_git_object sha1 compress content st).1 ∧
    (write_git_object sha1 compress content
        (write_git_object sha1 compress content st).2).2
      = (write_git_object sha1 compress content st).2 ∧
    storeRead (gitObjectPathChars (sha1 content))
        (write_git_object sha1 compress content st).2
      = some (compress content) := by
  refine ⟨rfl, ?_, ?_⟩
  · show storeWrite (gitObjectPathChars (sha1 content)) (compress content)
        (storeWrite (gitObjectPathChars (sha1 content)) (compress content) st)
      = storeWrite (gitObjectPathChars (sha1 content)) (compress content) st
    exact storeWrite_idem _ _ _
  · exact storeRead_write _ _ _

/-- C5 (amended): `write_tree` skips symbolic-link entries entirely — its
entry collection, and therefore its output and every object it writes, is
identical to that of the same directory with the symbolic links removed. As
stated — a symlink appears in the encoded tree as a blob-typed entry — the
claim is false: see the counterexample, where the tree of a directory whose
only entry is a symlink has no entries at all. -/
theorem C5_symlink_skipped (sha1 : List Nat → List Char)
    (compress : List Nat → List Nat) (d : FsDir) (st : ObjStore) :
    collectTreeEntries sha1 compress (dropSymlinks d) st
      = collectTreeEntries sha1 compress d st ∧
    write_tree sha1 compress (dropSymlinks d) st = write_tree sha1 compress d st := by
  have hcol : ∀ (d : FsDir) (st : ObjStore),
      collectTreeEntries sha1 compress (dropSymlinks d) st
        = collectTreeEntries sha1 compress d st := by
    intro d
    induction d with
    | nil => intro st; rfl
    | file n c e r ih =>
      intro st
      simp only [dropSymlinks, collectTreeEntries, ih]
    | dir n s r ihs ihr =>
      intro st
      simp only [dropSymlinks, collectTreeEntries, ihr]
    | symlink n r ih =>
      intro st
      simp only [dropSymlinks, collectTreeEntries, ih, ite_self]
  refine ⟨hcol d st, ?_⟩
  unfold write_tree
  rw [hcol d st]

/-- C5 counterexample: a directory whose only entry is a symbolic link named
`s` produces the empty tree — the payload `tree 0\x00` with zero decoded
entries — so no blob-typed entry for the symlink appears in the encoded
tree. -/
theorem C5_symlink_counterexample :
    write_tree (fun _ => List.replicate 40 'a') id
        (FsDir.symlink "s".toList FsDir.nil) []
      = Except.ok (List.replicate 40 'a',
          [(gitObjectPathChars (List.replicate 40 'a'), strBytes "tree 0\x00")]) ∧
    parse_tree_entries (strBytes "tree 0\x00") = Except.ok [] :=
  ⟨by decide, by decide⟩

/-- C6: `write_tree` sorts the collected entries ascending by name before
encoding them (the encoded list is pairwise ordered under byte-wise name
comparison, and the stored payload is built from exactly that sorted list);
concretely, a directory with subdirectory `d` (containing file `f`) and
sibling file `e` stores a root tree whose decoded entries are `d` (a tree
entry) then `e` (a blob entry), in that order. -/
theorem C6_write_tree_sorted (sha1 : List Nat → List Char)
    (compress : List Nat → List Nat) (d : FsDir) (st : ObjStore)
    (es : List (FileMode × List Char × List Char)) (st' : ObjStore)
    (hc : collectTreeEntries sha1 compress d st = Except.ok (es, st')) :
    List.Pairwise (fun a b => a.2.1 ≤ b.2.1) (sortByName es) ∧
    write_tree sha1 compress d st
      = (build_tree_content (sortByName es)).map
          (fun content => write_git_object sha1 compress content st') ∧
    (write_tree (fun _ => List.replicate 40 'a') id
        (FsDir.dir "d".toList (FsDir.file "f".toList [] false FsDir.nil)
          (FsDir.file "e".toList [] false FsDir.nil)) []).bind
        (fun p => match storeRead (gitObjectPathChars p.1) p.2 with
          | some c => parse_tree_entries c
          | none => Except.error "object missing")
      = Except.ok [⟨FileMode.Directory, "d".toList, List.replicate 40 'a',
            GitObjectType.Tree⟩,
          ⟨FileMode.RegularFile, "e".toList, List.replicate 40 'a',
            GitObjectType.Blob⟩] := by
  refine ⟨List.sorted_insertionSort _ es, ?_, by decide⟩
  unfold write_tree
  rw [hc]
  rfl

/-- Witness for C6 at the spec's own example directory. -/
theorem C6_write_tree_sorted_witness :
    List.Pairwise (fun a b => a.2.1 ≤ b.2.1)
      (sortByName [(FileMode.Directory, "d".toList, List.replicate 40 'a'),
        (FileMode.RegularFile, "e".toList, List.replicate 40 'a')]) ∧
    write_tree (fun _ => List.replicate 40 'a') id
        (FsDir.dir "d".toList (FsDir.file "f".toList [] false FsDir.nil)
          (FsDir.file "e".toList [] false FsDir.nil)) []
      = (build_tree_content
          (sortByName [(FileMode.Directory, "d".toList, List.replicate 40 'a'),
            (FileMode.RegularFile, "e".toList, List.replicate 40 'a')])).map
          (fun content => write_git_object (fun _ => List.replicate 40 'a') id content
            [(gitObjectPathChars (List.replicate 40 'a'), create_blob_object [])]) ∧
    (write_tree (fun _ => List.replicate 40 'a') id
        (FsDir.dir "d".toList (FsDir.file "f".toList [] false FsDir.nil)
          (FsDir.file "e".toList [] false FsDir.nil)) []).bind
        (fun p => match storeRead (gitObjectPathChars p.1) p.2 with
          | some c => parse_tree_entries c
          | none => Except.error "object missing")
      = Except.ok [⟨FileMode.Directory, "d".toList, List.replicate 40 'a',
            GitObjectType.Tree⟩,
          ⟨FileMode.RegularFile, "e".toList, List.replicate 40 'a',
            GitObjectType.Blob⟩] :=
  C6_write_tree_sorted (fun _ => List.replicate 40 'a') id
    (FsDir.dir "d".toList (FsDir.file "f".toList [] false FsDir.nil)
      (FsDir.file "e".toList [] false FsDir.nil)) []
    [(FileMode.Directory, "d".toList, List.replicate 40 'a'),
      (FileMode.RegularFile, "e".toList, List.replicate 40 'a')]
    [(gitObjectPathChars (List.replicate 40 'a'), create_blob_object [])]
    (by decide)

end GitRs
